import Mathlib

/-!
Shallow embedding of pymc3/distributions/transforms.py.

The aesara numeric engine (aet.exp, aet.log, aet.nnet.sigmoid, softplus,
cumsum, arctan2, ...) is an external collaborator of the transforms module;
its elementwise primitives are embedded as the corresponding real functions,
floating point being modelled by exact real arithmetic.  Vector-valued
transforms that act along the trailing axis (Ordered, SumTo1, StickBreaking,
CholeskyCovPacked) are modelled on one trailing-axis slice, a `List ℝ`.
The Chain combinator, whose jacobian_det tracks tensor dimensionality, is
modelled over a recursive tensor type with an `ndim` and a trailing-axis sum.
-/

noncomputable section

open Real (exp log sin cos)

/-- aet.nnet.sigmoid: the logistic function 1 / (1 + exp (-x)). -/
def sigmoid (x : ℝ) : ℝ := (1 + exp (-x))⁻¹

/-- aet.nnet.softplus: log (1 + exp x). -/
def softplus (x : ℝ) : ℝ := log (1 + exp x)

/-- Modelled from the spec: pymc3.math.logit (module not under src/),
the log-odds function log (x / (1 - x)). -/
def logit (x : ℝ) : ℝ := log (x / (1 - x))

/-- Modelled from the spec: pymc3.math.invlogit (module not under src/),
"sigmoid(y) (stable invlogit)"; the transforms module calls it with eps = 0,
where it is the logistic sigmoid.  The eps argument shifts the output into
[eps, 1-eps]. -/
def invlogit (x eps : ℝ) : ℝ := (1 - 2 * eps) * sigmoid x + eps

/-- aet.arctan2 y x: the angle of the point (x, y) in (-π, π], i.e. the
complex argument of x + y*I. -/
def arctan2 (y x : ℝ) : ℝ := Complex.arg (Complex.mk x y)

/-- aet.cumsum along the trailing axis, on one slice. -/
def cumsum : List ℝ → List ℝ
  | [] => []
  | a :: as => a :: (cumsum as).map (fun t => a + t)

/- ------------------------------------------------------------------
Log transform: backward x = exp x, forward x = log x, jacobian_det x = x.
------------------------------------------------------------------ -/

def Log.backward (x : ℝ) : ℝ := exp x

def Log.forward (x : ℝ) : ℝ := log x

def Log.jacobian_det (x : ℝ) : ℝ := x

/- ------------------------------------------------------------------
LogExpM1: backward = softplus, forward x = log (1 - exp (-x)) + x,
jacobian_det x = -softplus (-x).
------------------------------------------------------------------ -/

def LogExpM1.backward (x : ℝ) : ℝ := softplus x

def LogExpM1.forward (x : ℝ) : ℝ := log (1 - exp (-x)) + x

def LogExpM1.jacobian_det (x : ℝ) : ℝ := -softplus (-x)

/- ------------------------------------------------------------------
LogOdds: backward x = invlogit (x, 0.0), forward = logit.
------------------------------------------------------------------ -/

def LogOdds.backward (x : ℝ) : ℝ := invlogit x 0

def LogOdds.forward (x : ℝ) : ℝ := logit x

/- ------------------------------------------------------------------
Interval (a, b): backward x = sigmoid x * b + (1 - sigmoid x) * a,
forward x = log (x - a) - log (b - x),
jacobian_det x = log (b - a) - 2 * softplus (-x) - x.
------------------------------------------------------------------ -/

def Interval.backward (a b x : ℝ) : ℝ := sigmoid x * b + (1 - sigmoid x) * a

def Interval.forward (a b x : ℝ) : ℝ := log (x - a) - log (b - x)

def Interval.jacobian_det (a b x : ℝ) : ℝ := log (b - a) - 2 * softplus (-x) - x

/- ------------------------------------------------------------------
LowerBound (a): backward x = exp x + a, forward x = log (x - a).
------------------------------------------------------------------ -/

def LowerBound.backward (a x : ℝ) : ℝ := exp x + a

def LowerBound.forward (a x : ℝ) : ℝ := log (x - a)

def LowerBound.jacobian_det (_a x : ℝ) : ℝ := x

/- ------------------------------------------------------------------
UpperBound (b): backward x = b - exp x, forward x = log (b - x).
------------------------------------------------------------------ -/

def UpperBound.backward (b x : ℝ) : ℝ := b - exp x

def UpperBound.forward (b x : ℝ) : ℝ := log (b - x)

def UpperBound.jacobian_det (_b x : ℝ) : ℝ := x

/- ------------------------------------------------------------------
Circular: backward y = arctan2 (sin y) (cos y), forward = identity,
jacobian_det = zeros.
------------------------------------------------------------------ -/

def Circular.backward (y : ℝ) : ℝ := arctan2 (sin y) (cos y)

def Circular.forward (x : ℝ) : ℝ := x

def Circular.jacobian_det (_x : ℝ) : ℝ := 0

/- ------------------------------------------------------------------
Ordered (trailing-axis slice): backward y = cumsum of
[y 0, exp (y 1), exp (y 2), ...]; forward x = [x 0, log (x 1 - x 0), ...];
jacobian_det y = sum of y[1:].
------------------------------------------------------------------ -/

def Ordered.backward (y : List ℝ) : List ℝ :=
  cumsum (match y with
    | [] => []
    | y0 :: rest => y0 :: rest.map exp)

def Ordered.forward (x : List ℝ) : List ℝ :=
  match x with
  | [] => []
  | x0 :: rest => x0 :: List.zipWith (fun xi xim1 => log (xi - xim1)) rest (x0 :: rest).dropLast

def Ordered.jacobian_det (y : List ℝ) : ℝ := y.tail.sum

/- ------------------------------------------------------------------
SumTo1 (trailing-axis slice): backward y appends 1 - sum y; forward drops
the last coordinate; jacobian_det sums a zero tensor of the input's shape
over the trailing axis.
------------------------------------------------------------------ -/

def SumTo1.backward (y : List ℝ) : List ℝ := y ++ [1 - y.sum]

def SumTo1.forward (x : List ℝ) : List ℝ := x.dropLast

def SumTo1.jacobian_det (x : List ℝ) : ℝ := (x.map (fun _ => (0 : ℝ))).sum

/- ------------------------------------------------------------------
StickBreaking (trailing-axis slice):
forward x = (log x - mean (log x)) on all but the last coordinate;
backward y = stable softmax of y ++ [-sum y].
------------------------------------------------------------------ -/

/-- aet.max along the trailing axis of a (nonempty) slice. -/
def listMax : List ℝ → ℝ
  | [] => 0
  | a :: as => as.foldl max a

def StickBreaking.forward (x : List ℝ) : List ℝ :=
  let lx := x.map log
  let shift := lx.sum / x.length
  lx.dropLast.map (fun t => t - shift)

def StickBreaking.backward (y : List ℝ) : List ℝ :=
  let yfull := y ++ [-y.sum]
  let m := listMax yfull
  let e := yfull.map (fun t => exp (t - m))
  e.map (fun v => v / e.sum)

/- ------------------------------------------------------------------
CholeskyCovPacked (n): diag_idxs = arange(1, n+1).cumsum() - 1; forward
logs the entries at the diagonal indices, backward exps them, all other
entries pass through.
------------------------------------------------------------------ -/

/-- np.cumsum on a list of naturals. -/
def natCumsum : List ℕ → List ℕ
  | [] => []
  | a :: as => a :: (natCumsum as).map (fun t => a + t)

def CholeskyCovPacked.diag_idxs (n : ℕ) : List ℕ :=
  (natCumsum ((List.range n).map (fun j => j + 1))).map (fun t => t - 1)

/-- aet.advanced_set_subtensor1 x (f (x[idxs])) idxs, elementwise on a list
starting at position i: entries whose position is in idxs are replaced by f
of themselves, the rest pass through. -/
def mapAtIdxs (f : ℝ → ℝ) (idxs : List ℕ) : ℕ → List ℝ → List ℝ
  | _, [] => []
  | i, v :: vs => (if i ∈ idxs then f v else v) :: mapAtIdxs f idxs (i + 1) vs

def CholeskyCovPacked.backward (n : ℕ) (x : List ℝ) : List ℝ :=
  mapAtIdxs exp (CholeskyCovPacked.diag_idxs n) 0 x

def CholeskyCovPacked.forward (n : ℕ) (y : List ℝ) : List ℝ :=
  mapAtIdxs log (CholeskyCovPacked.diag_idxs n) 0 y

/- ------------------------------------------------------------------
The tensor model for the Chain combinator and the abstract base class: a
tensor is a real scalar or an array of tensors; `ndim` is the nesting
depth, `sumLast` sums over the trailing axis, `add` is broadcast addition.
------------------------------------------------------------------ -/

inductive Tensor where
  | scalar : ℝ → Tensor
  | arr : List Tensor → Tensor

def Tensor.ndim : Tensor → ℕ
  | scalar _ => 0
  | arr [] => 1
  | arr (t :: _) => t.ndim + 1

def Tensor.isScalar : Tensor → Bool
  | scalar _ => true
  | arr _ => false

def Tensor.scalarVal : Tensor → ℝ
  | scalar v => v
  | arr _ => 0

/-- tensor.sum(axis=-1): on an array of scalars, the scalar sum; on deeper
arrays, recurse into each element. -/
def Tensor.sumLast : Tensor → Tensor
  | scalar v => scalar v
  | arr ts =>
    if ts.all Tensor.isScalar then scalar (ts.map Tensor.scalarVal).sum
    else arr (ts.attach.map (fun u => Tensor.sumLast u.1))
termination_by t => sizeOf t
decreasing_by
  have h1 := List.sizeOf_lt_of_mem u.2
  simp only [Tensor.arr.sizeOf_spec]
  omega

/-- Broadcast addition of tensors (scalars broadcast into arrays; arrays of
equal length add elementwise). -/
def Tensor.add : Tensor → Tensor → Tensor
  | scalar a, scalar b => scalar (a + b)
  | scalar a, arr us => arr (us.attach.map (fun u => Tensor.add (scalar a) u.1))
  | arr ts, scalar b => arr (ts.attach.map (fun t => Tensor.add t.1 (scalar b)))
  | arr ts, arr us => arr ((List.zip ts us).attach.map (fun p => Tensor.add p.1.1 p.1.2))
termination_by t u => sizeOf t + sizeOf u
decreasing_by
  all_goals simp only [Tensor.arr.sizeOf_spec]
  · have h1 := List.sizeOf_lt_of_mem u.2
    omega
  · have h1 := List.sizeOf_lt_of_mem t.2
    omega
  · rcases p with ⟨⟨t1, t2⟩, hp⟩
    obtain ⟨h1, h2⟩ := List.of_mem_zip hp
    have h3 := List.sizeOf_lt_of_mem h1
    have h4 := List.sizeOf_lt_of_mem h2
    simp only
    omega

/- ------------------------------------------------------------------
The Transform interface (the contract a Chain child satisfies) and the
abstract base class, whose three methods raise NotImplementedError.
------------------------------------------------------------------ -/

structure Transform where
  name : String
  forward : Tensor → Tensor
  backward : Tensor → Tensor
  jacobian_det : Tensor → Tensor

inductive TransformError where
  | notImplemented
deriving DecidableEq

/-- The abstract base class Transform.forward: `raise NotImplementedError`. -/
def Transform.forwardBase (_x : Tensor) : Except TransformError Tensor :=
  .error .notImplemented

/-- The abstract base class Transform.backward: `raise NotImplementedError`. -/
def Transform.backwardBase (_z : Tensor) : Except TransformError Tensor :=
  .error .notImplemented

/-- The abstract base class Transform.jacobian_det: `raise NotImplementedError`. -/
def Transform.jacobianDetBase (_x : Tensor) : Except TransformError Tensor :=
  .error .notImplemented

/- ------------------------------------------------------------------
Chain combinator.
------------------------------------------------------------------ -/

def Chain.name (transform_list : List Transform) : String :=
  String.intercalate "+" (transform_list.map Transform.name)

def Chain.forward (transform_list : List Transform) (x : Tensor) : Tensor :=
  transform_list.foldl (fun y transf => transf.forward y) x

def Chain.backward (transform_list : List Transform) (y : Tensor) : Tensor :=
  transform_list.reverse.foldl (fun x transf => transf.backward x) y

/-- The loop body of Chain.jacobian_det's first loop: state is the current
value `y`, the accumulated det_list, and the running minimum ndim0. -/
def Chain.jacStep (st : Tensor × List Tensor × ℕ) (transf : Transform) :
    Tensor × List Tensor × ℕ :=
  let det_ := transf.jacobian_det st.1
  (transf.backward st.1, st.2.1 ++ [det_], min st.2.2 det_.ndim)

def Chain.jacobian_det (transform_list : List Transform) (y : Tensor) : Tensor :=
  let st := transform_list.reverse.foldl Chain.jacStep (y, [], y.ndim)
  let det_list := st.2.1
  let ndim0 := st.2.2
  det_list.foldl
    (fun det det_ =>
      if ndim0 < det_.ndim then det.add det_.sumLast else det.add det_)
    (.scalar 0)

/- ------------------------------------------------------------------
The spec's description of Chain.jacobian_det, written from its words: walk
children in reverse order, at each step computing that child's jacobian_det
on the current value and then applying backward to get the next value;
track the minimum dimensionality; sum all per-child values, first reducing
by a trailing-axis sum any value whose dimensionality exceeds the minimum.
------------------------------------------------------------------ -/

def chainDetsSpec : List Transform → Tensor → List Tensor
  | [], _ => []
  | transf :: rest, y => transf.jacobian_det y :: chainDetsSpec rest (transf.backward y)

def chainJacobianDetSpec (transform_list : List Transform) (y : Tensor) : Tensor :=
  let dets := chainDetsSpec transform_list.reverse y
  let ndim0 := (dets.map Tensor.ndim).foldl min y.ndim
  dets.foldl
    (fun det det_ => det.add (if ndim0 < det_.ndim then det_.sumLast else det_))
    (.scalar 0)

/- ------------------------------------------------------------------
Helper lemmas.
------------------------------------------------------------------ -/

lemma cumsum_cons (a : ℝ) (l : List ℝ) :
    cumsum (a :: l) = a :: (cumsum l).map (fun t => a + t) := rfl

lemma chain'_le_map_add (a : ℝ) (l : List ℝ)
    (h : List.Chain' (· ≤ ·) l) :
    List.Chain' (· ≤ ·) (l.map (fun t => a + t)) := by
  rw [List.chain'_map]
  exact h.imp (fun x1 x2 hxy => add_le_add_left hxy a)

lemma chain'_le_cumsum_cons (a : ℝ) (l : List ℝ)
    (h : ∀ v ∈ l, 0 ≤ v) :
    List.Chain' (· ≤ ·) (cumsum (a :: l)) := by
  induction l generalizing a with
  | nil => simp [cumsum]
  | cons b bs ih =>
    have hb : 0 ≤ b := h b (by simp)
    have hbs : ∀ v ∈ bs, 0 ≤ v := fun v hv => h v (by simp [hv])
    have hchain : List.Chain' (· ≤ ·) (cumsum (b :: bs)) := ih b hbs
    rw [cumsum_cons, cumsum_cons]
    rw [cumsum_cons] at hchain
    rw [List.map_cons, List.chain'_cons]
    constructor
    · linarith
    · have h2 := chain'_le_map_add a _ hchain
      simpa using h2

/- ------------------------------------------------------------------
Claim theorems (part 1).
------------------------------------------------------------------ -/

/-- Claim C5: for every input x, SumTo1.jacobian_det x returns the zero
value: the implemented log-Jacobian-determinant of SumTo1 is identically 0
(it sums a zero tensor of the input's shape over the trailing axis). -/
theorem C5_sumto1_jacobian_zero : ∀ x : List ℝ, SumTo1.jacobian_det x = 0 := by
  intro x
  unfold SumTo1.jacobian_det
  refine List.sum_eq_zero (fun v hv => ?_)
  simp at hv
  exact hv.2

/-- Claim C6: for any real vector y, Ordered.backward y is non-decreasing
along the trailing axis: each element of the result is at least the
preceding element. -/
theorem C6_ordered_monotone :
    ∀ y : List ℝ, List.Chain' (· ≤ ·) (Ordered.backward y) := by
  intro y
  unfold Ordered.backward
  match y with
  | [] => simp [cumsum]
  | y0 :: rest =>
    exact chain'_le_cumsum_cons y0 (rest.map exp)
      (fun v hv => by
        obtain ⟨t, _, rfl⟩ := List.mem_map.mp hv
        exact (Real.exp_pos t).le)

/-- Claim C7: for every pair of transforms A, B and every input,
Chain [A, B] .forward x = B.forward (A.forward x) (children applied
left-to-right) and Chain [A, B] .backward y = A.backward (B.backward y)
(children inverted right-to-left). -/
theorem C7_chain_composition :
    ∀ (A B : Transform) (x y : Tensor),
      Chain.forward [A, B] x = B.forward (A.forward x) ∧
      Chain.backward [A, B] y = A.backward (B.backward y) := by
  intro A B x y
  exact ⟨rfl, rfl⟩

/-- Claim C8: invoking forward, backward or jacobian_det on the abstract
Transform base signals a not-implemented error to the caller in every case;
no default value is returned. -/
theorem C8_base_not_implemented :
    ∀ x z w : Tensor,
      Transform.forwardBase x = Except.error TransformError.notImplemented ∧
      Transform.backwardBase z = Except.error TransformError.notImplemented ∧
      Transform.jacobianDetBase w = Except.error TransformError.notImplemented ∧
      (∀ t : Tensor, Transform.forwardBase x ≠ Except.ok t) ∧
      (∀ t : Tensor, Transform.backwardBase z ≠ Except.ok t) ∧
      (∀ t : Tensor, Transform.jacobianDetBase w ≠ Except.ok t) := by
  intro x z w
  refine ⟨rfl, rfl, rfl, ?_, ?_, ?_⟩ <;> intro t h <;> exact Except.noConfusion h

/-- Claim C9: for every real input vector y, SumTo1.backward y returns a
vector one element longer whose elements sum to exactly 1, the appended
last coordinate being 1 minus the sum of the others; entries may lie
outside [0, 1] (witnessed by the input [2], whose image contains -1). -/
theorem C9_sumto1_backward_sum :
    (∀ y : List ℝ, (SumTo1.backward y).length = y.length + 1 ∧
      (SumTo1.backward y).sum = 1) ∧
    (-1 : ℝ) ∈ SumTo1.backward [2] ∧ (-1 : ℝ) < 0 := by
  refine ⟨fun y => ⟨by simp [SumTo1.backward], ?_⟩, ?_, by norm_num⟩
  · simp [SumTo1.backward]
  · have h : SumTo1.backward [2] = [2, -1] := by
      simp [SumTo1.backward]
      norm_num
    rw [h]
    simp

/-- Claim C10: a Chain constructed from the empty transform list is the
identity transform: forward and backward return their input unchanged and
jacobian_det is the scalar 0. -/
theorem C10_empty_chain_identity :
    ∀ x y : Tensor,
      Chain.forward [] x = x ∧
      Chain.backward [] y = y ∧
      Chain.jacobian_det [] y = Tensor.scalar 0 := by
  intro x y
  exact ⟨rfl, rfl, rfl⟩

lemma jacStep_foldl (l : List Transform) :
    ∀ (y : Tensor) (acc : List Tensor) (n : ℕ),
      (l.foldl Chain.jacStep (y, acc, n)).2 =
        (acc ++ chainDetsSpec l y,
         ((chainDetsSpec l y).map Tensor.ndim).foldl min n) := by
  induction l with
  | nil => intro y acc n; simp [chainDetsSpec]
  | cons t rest ih =>
    intro y acc n
    rw [List.foldl_cons]
    rw [show Chain.jacStep (y, acc, n) t =
      (t.backward y, acc ++ [t.jacobian_det y],
        min n (t.jacobian_det y).ndim) from rfl]
    rw [ih]
    simp [chainDetsSpec]

/-- Claim C2: Chain.jacobian_det walks the children in reverse order,
computing each child's jacobian_det on the current value and then applying
that child's backward to obtain the value fed to the next child, while
tracking the minimum dimensionality among the per-child results; the final
result is the sum of all per-child log-Jacobian values, any value whose
dimensionality exceeds that minimum being first reduced by summing its
trailing axis (chainJacobianDetSpec states exactly this reading). -/
theorem C2_chain_jacobian_det :
    ∀ (transform_list : List Transform) (y : Tensor),
      Chain.jacobian_det transform_list y = chainJacobianDetSpec transform_list y := by
  intro ts y
  simp only [Chain.jacobian_det, chainJacobianDetSpec]
  rw [jacStep_foldl]
  simp only [List.nil_append]
  apply List.foldl_ext
  intro det det_ _
  by_cases h : ((chainDetsSpec ts.reverse y).map Tensor.ndim).foldl min y.ndim < det_.ndim <;>
    simp [h]

lemma one_add_exp_pos (t : ℝ) : 0 < 1 + exp t := by positivity

lemma hasDerivAt_sigmoid (y : ℝ) :
    HasDerivAt sigmoid (exp (-y) / (1 + exp (-y)) ^ 2) y := by
  have h1 : HasDerivAt (fun t : ℝ => -t) (-1) y := (hasDerivAt_id y).neg
  have h2 : HasDerivAt (fun t : ℝ => exp (-t)) (exp (-y) * (-1)) y := h1.exp
  have h3 : HasDerivAt (fun t : ℝ => 1 + exp (-t)) (exp (-y) * (-1)) y :=
    h2.const_add 1
  have h4 := h3.inv (ne_of_gt (one_add_exp_pos (-y)))
  have h5 : -(exp (-y) * (-1)) / (1 + exp (-y)) ^ 2 =
      exp (-y) / (1 + exp (-y)) ^ 2 := by ring
  rw [h5] at h4
  exact h4

lemma hasDerivAt_interval_backward (a b y : ℝ) :
    HasDerivAt (Interval.backward a b)
      ((b - a) * (exp (-y) / (1 + exp (-y)) ^ 2)) y := by
  have hs := hasDerivAt_sigmoid y
  have hb : HasDerivAt (fun t => sigmoid t * b)
      (exp (-y) / (1 + exp (-y)) ^ 2 * b) y := hs.mul_const b
  have hc : HasDerivAt (fun t => 1 - sigmoid t)
      (-(exp (-y) / (1 + exp (-y)) ^ 2)) y := hs.const_sub 1
  have hd : HasDerivAt (fun t => (1 - sigmoid t) * a)
      (-(exp (-y) / (1 + exp (-y)) ^ 2) * a) y := hc.mul_const a
  have he := hb.add hd
  have hf : exp (-y) / (1 + exp (-y)) ^ 2 * b +
      -(exp (-y) / (1 + exp (-y)) ^ 2) * a =
      (b - a) * (exp (-y) / (1 + exp (-y)) ^ 2) := by ring
  rw [hf] at he
  exact he

/-- Claim C4: for every a < b and every real input y,
Interval.jacobian_det a b y equals the closed form
log (b - a) - 2 * softplus (-y) - y, and this equals the log of the
absolute derivative of Interval.backward a b at y (the derivative of
sigmoid y * b + (1 - sigmoid y) * a). -/
theorem C4_interval_jacobian :
    ∀ a b y : ℝ, a < b →
      Interval.jacobian_det a b y = log (b - a) - 2 * softplus (-y) - y ∧
      Interval.jacobian_det a b y = log |deriv (Interval.backward a b) y| := by
  intro a b y hab
  refine ⟨rfl, ?_⟩
  rw [(hasDerivAt_interval_backward a b y).deriv]
  have hE : (0 : ℝ) < exp (-y) := Real.exp_pos (-y)
  have hD : (0 : ℝ) < 1 + exp (-y) := one_add_exp_pos (-y)
  have hpos : (0 : ℝ) < (b - a) * (exp (-y) / (1 + exp (-y)) ^ 2) := by
    apply mul_pos (by linarith)
    positivity
  rw [abs_of_pos hpos]
  rw [Real.log_mul (by linarith) (by positivity)]
  rw [Real.log_div (ne_of_gt hE) (by positivity)]
  rw [Real.log_exp, Real.log_pow]
  unfold Interval.jacobian_det softplus
  push_cast
  ring

/-- Witness for C4 at a = 0, b = 1, y = 0. -/
theorem C4_interval_jacobian_witness :
    Interval.jacobian_det 0 1 0 = log (1 - 0) - 2 * softplus (-0) - 0 ∧
    Interval.jacobian_det 0 1 0 = log |deriv (Interval.backward 0 1) 0| :=
  C4_interval_jacobian 0 1 0 (by norm_num)

/- ------------------------------------------------------------------
Round-trip lemmas for the concrete transforms (claim C1).
------------------------------------------------------------------ -/

lemma log_roundtrip {x : ℝ} (hx : 0 < x) : Log.backward (Log.forward x) = x :=
  Real.exp_log hx

lemma log_exp_m1_roundtrip {x : ℝ} (hx : 0 < x) :
    LogExpM1.backward (LogExpM1.forward x) = x := by
  unfold LogExpM1.backward LogExpM1.forward softplus
  have h1 : exp (-x) < 1 := by
    rw [Real.exp_lt_one_iff]
    linarith
  have h2 : (0 : ℝ) < 1 - exp (-x) := by linarith
  rw [Real.exp_add, Real.exp_log h2]
  have h3 : (1 - exp (-x)) * exp x = exp x - 1 := by
    have h4 : exp (-x) * exp x = 1 := by
      rw [← Real.exp_add]
      simp
    linear_combination -h4
  rw [h3]
  have h5 : 1 + (exp x - 1) = exp x := by ring
  rw [h5, Real.log_exp]

lemma logodds_roundtrip {x : ℝ} (hx0 : 0 < x) (hx1 : x < 1) :
    LogOdds.backward (LogOdds.forward x) = x := by
  unfold LogOdds.backward LogOdds.forward invlogit logit sigmoid
  have h1 : (0 : ℝ) < 1 - x := by linarith
  have h2 : 0 < x / (1 - x) := div_pos hx0 h1
  rw [Real.exp_neg, Real.exp_log h2]
  rw [show (x / (1 - x))⁻¹ = (1 - x) / x by rw [inv_div]]
  have h3 : 1 + (1 - x) / x = x⁻¹ := by
    field_simp
  rw [h3, inv_inv]
  ring

lemma interval_roundtrip {a b x : ℝ} (hax : a < x) (hxb : x < b) :
    Interval.backward a b (Interval.forward a b x) = x := by
  unfold Interval.backward Interval.forward sigmoid
  have h1 : (0 : ℝ) < x - a := by linarith
  have h2 : (0 : ℝ) < b - x := by linarith
  rw [neg_sub, Real.exp_sub, Real.exp_log h1, Real.exp_log h2]
  have h3 : 1 + (b - x) / (x - a) = (b - a) / (x - a) := by
    field_simp
  rw [h3]
  rw [show ((b - a) / (x - a))⁻¹ = (x - a) / (b - a) by rw [inv_div]]
  have hba : (0 : ℝ) < b - a := by linarith
  field_simp
  ring

lemma lowerbound_roundtrip {a x : ℝ} (hax : a < x) :
    LowerBound.backward a (LowerBound.forward a x) = x := by
  unfold LowerBound.backward LowerBound.forward
  rw [Real.exp_log (by linarith)]
  ring

lemma upperbound_roundtrip {b x : ℝ} (hxb : x < b) :
    UpperBound.backward b (UpperBound.forward b x) = x := by
  unfold UpperBound.backward UpperBound.forward
  rw [Real.exp_log (by linarith)]
  ring

lemma map_dropLast_eq (f : ℝ → ℝ) : ∀ l : List ℝ, (l.map f).dropLast = l.dropLast.map f
  | [] => rfl
  | [_] => rfl
  | a :: b :: t => by
    simp only [List.map_cons, List.dropLast_cons₂]
    rw [← List.map_cons]
    rw [map_dropLast_eq f (b :: t)]

lemma map_dropLast_append_getLast (f : ℝ → ℝ) {l : List ℝ} (h : l ≠ []) :
    l.dropLast.map f ++ [f (l.getLast h)] = l.map f := by
  conv_rhs => rw [← List.dropLast_append_getLast h]
  rw [List.map_append]
  rfl

lemma sum_map_sub_const : ∀ (l : List ℝ) (c : ℝ),
    (l.map (fun t => t - c)).sum = l.sum - l.length * c
  | [], _ => by simp
  | a :: t, c => by
    simp only [List.map_cons, List.sum_cons, List.length_cons]
    rw [sum_map_sub_const t c]
    push_cast
    ring

lemma sum_map_mul_const : ∀ (l : List ℝ) (c : ℝ),
    (l.map (fun v => v * c)).sum = l.sum * c
  | [], _ => by simp
  | a :: t, c => by
    simp only [List.map_cons, List.sum_cons]
    rw [sum_map_mul_const t c]
    ring

lemma sum_map_div_const : ∀ (l : List ℝ) (c : ℝ),
    (l.map (fun v => v / c)).sum = l.sum / c
  | [], _ => by simp
  | a :: t, c => by
    simp only [List.map_cons, List.sum_cons]
    rw [sum_map_div_const t c]
    ring

lemma ordered_roundtrip : ∀ x : List ℝ, List.Chain' (· < ·) x →
    Ordered.backward (Ordered.forward x) = x
  | [], _ => rfl
  | [a], _ => by simp [Ordered.forward, Ordered.backward, cumsum]
  | x0 :: x1 :: xs, hchain => by
    have h01 : x0 < x1 := (List.chain'_cons.mp hchain).1
    have htl : List.Chain' (· < ·) (x1 :: xs) := (List.chain'_cons.mp hchain).2
    have ih := ordered_roundtrip (x1 :: xs) htl
    simp only [Ordered.forward, Ordered.backward, List.dropLast_cons₂,
      List.zipWith_cons_cons, List.map_cons] at ih ⊢
    rw [Real.exp_log (by linarith : (0:ℝ) < x1 - x0)]
    rw [cumsum_cons] at ih
    simp only [List.cons.injEq, true_and] at ih
    rw [cumsum_cons, cumsum_cons, List.map_cons, List.map_map]
    have hfun : ((fun t => x0 + t) ∘ fun t => x1 - x0 + t) = fun t => x1 + t := by
      funext t
      simp only [Function.comp]
      ring
    rw [hfun, ih]
    have hx : x0 + (x1 - x0) = x1 := by ring
    rw [hx]

lemma sumto1_roundtrip {x : List ℝ} (hne : x ≠ []) (hsum : x.sum = 1) :
    SumTo1.backward (SumTo1.forward x) = x := by
  unfold SumTo1.backward SumTo1.forward
  have hsplit : x.dropLast ++ [x.getLast hne] = x := List.dropLast_append_getLast hne
  have hsum2 : x.dropLast.sum + x.getLast hne = 1 := by
    have := congrArg List.sum hsplit
    simp only [List.sum_append, List.sum_cons, List.sum_nil, add_zero] at this
    rw [this, hsum]
  have hlast : 1 - x.dropLast.sum = x.getLast hne := by linarith
  rw [hlast]
  exact hsplit

lemma mapAtIdxs_roundtrip (idxs : List ℕ) :
    ∀ (vs : List ℝ) (i : ℕ),
      (∀ k (hk : k < vs.length), (i + k) ∈ idxs → 0 < vs[k]) →
      mapAtIdxs exp idxs i (mapAtIdxs log idxs i vs) = vs
  | [], _, _ => rfl
  | v :: tl, i, h => by
    simp only [mapAtIdxs]
    by_cases hi : i ∈ idxs
    · simp only [hi, if_true]
      have hv : 0 < v := by
        have h0 := h 0 (by simp) (by simpa using hi)
        simpa using h0
      rw [Real.exp_log hv]
      rw [mapAtIdxs_roundtrip idxs tl (i + 1) ?_]
      intro k hk hmem
      have hk1 : k + 1 < (v :: tl).length := by simpa using Nat.succ_lt_succ hk
      have h1 := h (k + 1) hk1 (by
        have : i + (k + 1) = i + 1 + k := by omega
        rw [this]
        exact hmem)
      simpa using h1
    · simp only [hi, if_false]
      rw [mapAtIdxs_roundtrip idxs tl (i + 1) ?_]
      intro k hk hmem
      have hk1 : k + 1 < (v :: tl).length := by simpa using Nat.succ_lt_succ hk
      have h1 := h (k + 1) hk1 (by
        have : i + (k + 1) = i + 1 + k := by omega
        rw [this]
        exact hmem)
      simpa using h1

lemma cholesky_roundtrip {n : ℕ} {y : List ℝ}
    (h : ∀ k (hk : k < y.length), k ∈ CholeskyCovPacked.diag_idxs n → 0 < y[k]) :
    CholeskyCovPacked.backward n (CholeskyCovPacked.forward n y) = y := by
  unfold CholeskyCovPacked.backward CholeskyCovPacked.forward
  exact mapAtIdxs_roundtrip _ y 0 (fun k hk hmem => h k hk (by simpa using hmem))

lemma stickbreaking_roundtrip {x : List ℝ} (hne : x ≠ [])
    (hpos : ∀ v ∈ x, 0 < v) (hsum : x.sum = 1) :
    StickBreaking.backward (StickBreaking.forward x) = x := by
  simp only [StickBreaking.backward, StickBreaking.forward]
  have hlxne : (x.map log) ≠ [] := by simpa using hne
  have hklen : (1 : ℕ) ≤ x.length := List.length_pos.mpr hne
  have hkR : ((x.length : ℝ)) ≠ 0 := by
    simp only [ne_eq, Nat.cast_eq_zero]
    omega
  set lx := x.map log with hlx
  set shift := lx.sum / (x.length : ℝ) with hshift
  have hsum_shift : lx.sum = (x.length : ℝ) * shift := by
    rw [hshift]
    field_simp
  have hdrop_sum : lx.dropLast.sum = lx.sum - lx.getLast hlxne := by
    have h1 := congrArg List.sum (List.dropLast_append_getLast hlxne)
    simp only [List.sum_append, List.sum_cons, List.sum_nil, add_zero] at h1
    linarith
  have hdrop_len : ((lx.dropLast.length : ℕ) : ℝ) = (x.length : ℝ) - 1 := by
    rw [List.length_dropLast, hlx, List.length_map]
    push_cast [hklen]
    ring
  have hy_sum : (lx.dropLast.map (fun t => t - shift)).sum =
      shift - lx.getLast hlxne := by
    rw [sum_map_sub_const, hdrop_sum, hdrop_len, hsum_shift]
    ring
  have hyfull : lx.dropLast.map (fun t => t - shift) ++
      [-(lx.dropLast.map (fun t => t - shift)).sum] = lx.map (fun t => t - shift) := by
    rw [hy_sum]
    rw [show -(shift - lx.getLast hlxne) = lx.getLast hlxne - shift by ring]
    exact map_dropLast_append_getLast (fun t => t - shift) hlxne
  rw [hyfull]
  set m := listMax (lx.map (fun t => t - shift)) with hm
  set C := exp (-(shift + m)) with hC
  have hCpos : (0 : ℝ) < C := Real.exp_pos _
  have he : (lx.map (fun t => t - shift)).map (fun t => exp (t - m)) =
      x.map (fun v => v * C) := by
    rw [hlx, List.map_map, List.map_map]
    apply List.map_congr_left
    intro v hv
    simp only [Function.comp]
    rw [hC]
    rw [show log v - shift - m = -(shift + m) + log v by ring]
    rw [Real.exp_add, Real.exp_log (hpos v hv)]
    ring
  rw [he]
  have hesum : (x.map (fun v => v * C)).sum = C := by
    rw [sum_map_mul_const, hsum, one_mul]
  rw [hesum]
  rw [List.map_map]
  have hfun : ((fun v => v / C) ∘ fun v => v * C) = id := by
    funext v
    simp only [Function.comp, id]
    field_simp
  rw [hfun, List.map_id]

/-- Claim C1: for every concrete transform T and every x strictly inside T's
declared constrained domain, T.backward (T.forward x) = x; for Circular the
round-trip holds only modulo 2π-wrapping:
Circular.backward (Circular.forward x) = arctan2 (sin x) (cos x). -/
theorem C1_round_trip :
    (∀ x : ℝ, 0 < x → Log.backward (Log.forward x) = x) ∧
    (∀ x : ℝ, 0 < x → LogExpM1.backward (LogExpM1.forward x) = x) ∧
    (∀ x : ℝ, 0 < x → x < 1 → LogOdds.backward (LogOdds.forward x) = x) ∧
    (∀ a b x : ℝ, a < x → x < b → Interval.backward a b (Interval.forward a b x) = x) ∧
    (∀ a x : ℝ, a < x → LowerBound.backward a (LowerBound.forward a x) = x) ∧
    (∀ b x : ℝ, x < b → UpperBound.backward b (UpperBound.forward b x) = x) ∧
    (∀ x : List ℝ, List.Chain' (· < ·) x → Ordered.backward (Ordered.forward x) = x) ∧
    (∀ x : List ℝ, x ≠ [] → x.sum = 1 → SumTo1.backward (SumTo1.forward x) = x) ∧
    (∀ x : List ℝ, x ≠ [] → (∀ v ∈ x, 0 < v) → x.sum = 1 →
      StickBreaking.backward (StickBreaking.forward x) = x) ∧
    (∀ (n : ℕ) (y : List ℝ),
      (∀ k (hk : k < y.length), k ∈ CholeskyCovPacked.diag_idxs n → 0 < y[k]) →
      CholeskyCovPacked.backward n (CholeskyCovPacked.forward n y) = y) ∧
    (∀ x : ℝ, Circular.backward (Circular.forward x) = arctan2 (sin x) (cos x)) := by
  refine ⟨?_, ?_, ?_, ?_, ?_, ?_, ?_, ?_, ?_, ?_, ?_⟩
  · exact fun x hx => log_roundtrip hx
  · exact fun x hx => log_exp_m1_roundtrip hx
  · exact fun x hx0 hx1 => logodds_roundtrip hx0 hx1
  · exact fun a b x hax hxb => interval_roundtrip hax hxb
  · exact fun a x hax => lowerbound_roundtrip hax
  · exact fun b x hxb => upperbound_roundtrip hxb
  · exact ordered_roundtrip
  · exact fun x hne hsum => sumto1_roundtrip hne hsum
  · exact fun x hne hpos hsum => stickbreaking_roundtrip hne hpos hsum
  · exact fun n y h => cholesky_roundtrip h
  · exact fun x => rfl

/-- Witness for C1: each round-trip clause applied at a concrete point of its
domain: 2 for Log, 1 for LogExpM1, 1/2 for LogOdds, (0,1) ∋ 1/2 for Interval,
1 above 0 for LowerBound, 0 below 1 for UpperBound, the increasing [0, 1]
for Ordered, the simplex point [1/2, 1/2] for SumTo1 and StickBreaking,
[1, 5, 2] with positive diagonal entries for CholeskyCovPacked n = 2,
and 0 for Circular. -/
theorem C1_round_trip_witness :
    Log.backward (Log.forward 2) = 2 ∧
    LogExpM1.backward (LogExpM1.forward 1) = 1 ∧
    LogOdds.backward (LogOdds.forward (1/2)) = 1/2 ∧
    Interval.backward 0 1 (Interval.forward 0 1 (1/2)) = 1/2 ∧
    LowerBound.backward 0 (LowerBound.forward 0 1) = 1 ∧
    UpperBound.backward 1 (UpperBound.forward 1 0) = 0 ∧
    Ordered.backward (Ordered.forward [0, 1]) = [0, 1] ∧
    SumTo1.backward (SumTo1.forward [1/2, 1/2]) = [1/2, 1/2] ∧
    StickBreaking.backward (StickBreaking.forward [1/2, 1/2]) = [1/2, 1/2] ∧
    CholeskyCovPacked.backward 2 (CholeskyCovPacked.forward 2 [1, 5, 2]) = [1, 5, 2] ∧
    Circular.backward (Circular.forward 0) = arctan2 (sin 0) (cos 0) := by
  obtain ⟨h1, h2, h3, h4, h5, h6, h7, h8, h9, h10, h11⟩ := C1_round_trip
  refine ⟨h1 2 (by norm_num), h2 1 (by norm_num), h3 (1/2) (by norm_num) (by norm_num),
    h4 0 1 (1/2) (by norm_num) (by norm_num), h5 0 1 (by norm_num), h6 1 0 (by norm_num),
    h7 [0, 1] (by norm_num), h8 [1/2, 1/2] (by simp) (by norm_num [List.sum_cons]),
    h9 [1/2, 1/2] (by simp) ?_ (by norm_num [List.sum_cons]),
    h10 2 [1, 5, 2] ?_, h11 0⟩
  · intro v hv
    simp only [List.mem_cons, List.not_mem_nil, or_false] at hv
    rcases hv with rfl | rfl <;> norm_num
  · intro k hk hmem
    have hk2 : k = 0 ∨ k = 2 := by
      have : CholeskyCovPacked.diag_idxs 2 = [0, 2] := by decide
      rw [this] at hmem
      simpa using hmem
    rcases hk2 with rfl | rfl <;> norm_num

lemma elem_lt_sum {l : List ℝ} (hpos : ∀ v ∈ l, 0 < v) (hlen : 2 ≤ l.length) :
    ∀ v ∈ l, v < l.sum := by
  intro v hv
  obtain ⟨s, t, rfl⟩ := List.append_of_mem hv
  rw [List.sum_append, List.sum_cons]
  have hs : 0 ≤ s.sum := List.sum_nonneg (fun a ha => (hpos a (by simp [ha])).le)
  have ht : 0 ≤ t.sum := List.sum_nonneg (fun a ha => (hpos a (by simp [ha])).le)
  have hst : 0 < s.sum + t.sum := by
    rcases s with _ | ⟨a, s2⟩
    · have htne : t ≠ [] := by
        rcases t with _ | _
        · simp at hlen
        · simp
      have := List.sum_pos t (fun b hb => hpos b (by simp [hb])) htne
      simpa using this
    · have := List.sum_pos (a :: s2)
        (fun b hb => hpos b (by
          simp only [List.mem_cons, List.mem_append] at hb ⊢
          tauto))
        (by simp)
      linarith
  linarith

lemma sb_exp_list_pos (y : List ℝ) (m : ℝ) :
    ∀ v ∈ (y ++ [-y.sum]).map (fun t => exp (t - m)), 0 < v := by
  intro v hv
  obtain ⟨t, _, rfl⟩ := List.mem_map.mp hv
  exact Real.exp_pos _

lemma sb_exp_list_sum_pos (y : List ℝ) (m : ℝ) :
    0 < ((y ++ [-y.sum]).map (fun t => exp (t - m))).sum :=
  List.sum_pos _ (sb_exp_list_pos y m) (by simp)

lemma sb_forward_backward (y : List ℝ) :
    StickBreaking.forward (StickBreaking.backward y) = y := by
  simp only [StickBreaking.forward, StickBreaking.backward]
  set yfull := y ++ [-y.sum] with hyf
  set m := listMax yfull with hm
  set e := yfull.map (fun t => exp (t - m)) with he
  set S := e.sum with hS
  have hSpos : (0 : ℝ) < S := by
    rw [hS, he, hyf]
    exact sb_exp_list_sum_pos y m
  set xl := e.map (fun v => v / S) with hxl
  have hlog : xl.map log = yfull.map (fun t => t - (m + log S)) := by
    rw [hxl, he, List.map_map, List.map_map]
    apply List.map_congr_left
    intro t _
    simp only [Function.comp]
    rw [Real.log_div (Real.exp_ne_zero _) (ne_of_gt hSpos), Real.log_exp]
    ring
  have hlen : (xl.length : ℝ) = (y.length : ℝ) + 1 := by
    rw [hxl, he, hyf]
    simp
  have hsum0 : yfull.sum = 0 := by
    rw [hyf]
    simp
  have hyflen : ((yfull.length : ℕ) : ℝ) = (y.length : ℝ) + 1 := by
    rw [hyf]
    simp
  have hlogsum : (xl.map log).sum = yfull.sum - yfull.length * (m + log S) := by
    rw [hlog, sum_map_sub_const]
  have hylen1 : (y.length : ℝ) + 1 ≠ 0 := by positivity
  have hshift : (xl.map log).sum / (xl.length : ℝ) = -(m + log S) := by
    rw [hlogsum, hsum0, hlen, hyflen]
    field_simp
    ring
  rw [hshift, hlog, map_dropLast_eq, hyf, List.dropLast_concat, List.map_map]
  have hid : ((fun t => t - -(m + log S)) ∘ fun t => t - (m + log S)) = id := by
    funext t
    simp only [Function.comp, id]
    ring
  rw [hid, List.map_id]

/-- Counterexample to claim C3 as stated: at the empty input vector
(k = 1), StickBreaking.backward [] = [1], whose single entry 1 does not lie
in the open interval (0, 1). -/
theorem C3_counterexample :
    (1 : ℝ) ∈ StickBreaking.backward [] ∧ ¬ ((0 : ℝ) < 1 ∧ (1 : ℝ) < 1) := by
  constructor
  · have h : StickBreaking.backward [] = [1] := by
      simp [StickBreaking.backward, listMax]
    rw [h]
    simp
  · intro h
    exact absurd h.2 (lt_irrefl 1)

/-- Claim C3, amended: for any real vector y of length k-1,
StickBreaking.backward y produces a vector of length k summing to 1, and
StickBreaking.forward is a left inverse of backward; when y is nonempty
(k ≥ 2) all entries lie in (0,1), while for the empty y (k = 1) the single
entry is 1 and lies outside the open interval. -/
theorem C3_stickbreaking_simplex :
    ∀ y : List ℝ,
      (StickBreaking.backward y).length = y.length + 1 ∧
      (StickBreaking.backward y).sum = 1 ∧
      (y ≠ [] → ∀ v ∈ StickBreaking.backward y, 0 < v ∧ v < 1) ∧
      StickBreaking.forward (StickBreaking.backward y) = y := by
  intro y
  have hSpos := sb_exp_list_sum_pos y (listMax (y ++ [-y.sum]))
  refine ⟨?_, ?_, ?_, sb_forward_backward y⟩
  · simp [StickBreaking.backward]
  · simp only [StickBreaking.backward]
    rw [sum_map_div_const]
    exact div_self (ne_of_gt hSpos)
  · intro hne v hv
    simp only [StickBreaking.backward] at hv
    obtain ⟨w, hw, rfl⟩ := List.mem_map.mp hv
    have hwpos := sb_exp_list_pos y (listMax (y ++ [-y.sum])) w hw
    constructor
    · exact div_pos hwpos hSpos
    · rw [div_lt_one hSpos]
      apply elem_lt_sum (sb_exp_list_pos y _) ?_ w hw
      simp only [List.length_map, List.length_append, List.length_cons,
        List.length_nil]
      have : 1 ≤ y.length := List.length_pos.mpr hne
      omega

/-- Witness for C3 at y = [0]. -/
theorem C3_stickbreaking_simplex_witness :
    (StickBreaking.backward [0]).length = [0].length + 1 ∧
    (StickBreaking.backward [0]).sum = 1 ∧
    (∀ v ∈ StickBreaking.backward [0], 0 < v ∧ v < 1) ∧
    StickBreaking.forward (StickBreaking.backward [0]) = [0] := by
  have h := C3_stickbreaking_simplex [0]
  exact ⟨h.1, h.2.1, h.2.2.1 (by simp), h.2.2.2⟩
